import Mathlib

/-!
Verification of the data-sonification engine in
`public/app/core/services/Sonifier.ts`.

The TypeScript source is shallowly embedded here:

* JavaScript numbers are modelled by `JsNum`: an exact rational together
  with `NaN` and signed infinities, with the IEEE-754 special-value rules
  JavaScript uses (`NaN` propagates through arithmetic, every comparison
  involving `NaN` is false, division of a nonzero value by zero yields a
  signed infinity, `0 / 0` is `NaN`).  Rounding of ordinary arithmetic is
  ignored (rationals are exact); none of the properties proved below
  depends on rounding.
* `Math.pow(2, d / 12)` (for a natural semitone distance `d`) is kept as
  an abstract parameter `pw : ℕ → ℚ`.  Its exact value is
  implementation-defined in JavaScript; the theorems only assume what
  every implementation satisfies: monotonicity in `d` and `pw 0 = 1`.
  Witness theorems instantiate `pw` with the concrete strictly monotone
  function `pwLin`.
* `Array.prototype.sort` with the comparators `(a, b) => a[1] - b[1]` and
  `(a, b) => a[0] - b[0]` is a stable sort by the given rational key; it
  is modelled by the stable insertion sort `sortByKey`.
* Out-of-bounds array reads yield `undefined`, which behaves as `NaN` in
  arithmetic and comparisons; `jsIdx` models such a read.  Reading a
  property of `undefined` (as in `sortedByValue[0][1]` on an empty array)
  throws a `TypeError`; fallible functions therefore return an `Option`,
  with `none` marking the thrown exception.
* The stateful playback queue is modelled by explicit state passing on
  `SonState`; calls to `oscillator.start` on the audio device are
  collected in a `List StartCall` output.
-/

namespace Sonifier

/-- A JavaScript number: `NaN`, a signed infinity (`inf true` is `+∞`,
`inf false` is `-∞`), or a finite value modelled as an exact rational. -/
inductive JsNum where
  | nan : JsNum
  | inf : Bool → JsNum
  | num : ℚ → JsNum
deriving DecidableEq

/-- JavaScript addition on `JsNum`. -/
def jsAdd : JsNum → JsNum → JsNum
  | .nan, _ => .nan
  | _, .nan => .nan
  | .inf a, .inf b => if a = b then .inf a else .nan
  | .inf a, .num _ => .inf a
  | .num _, .inf b => .inf b
  | .num a, .num b => .num (a + b)

/-- JavaScript subtraction on `JsNum`. -/
def jsSub : JsNum → JsNum → JsNum
  | .nan, _ => .nan
  | _, .nan => .nan
  | .inf a, .inf b => if a = b then .nan else .inf a
  | .inf a, .num _ => .inf a
  | .num _, .inf b => .inf (!b)
  | .num a, .num b => .num (a - b)

/-- JavaScript multiplication on `JsNum`.  `∞ × 0` is `NaN`; otherwise the
sign of an infinite product follows the sign rule (rationals carry no
negative zero, so `0` counts as positive). -/
def jsMul : JsNum → JsNum → JsNum
  | .nan, _ => .nan
  | _, .nan => .nan
  | .inf a, .inf b => .inf (a = b)
  | .inf a, .num q => if q = 0 then .nan else .inf (a = decide (0 < q))
  | .num q, .inf b => if q = 0 then .nan else .inf (b = decide (0 < q))
  | .num a, .num b => .num (a * b)

/-- JavaScript division on `JsNum`.  `0 / 0` is `NaN`, a nonzero finite
value divided by zero is a signed infinity, a finite value divided by an
infinity is `0`. -/
def jsDiv : JsNum → JsNum → JsNum
  | .nan, _ => .nan
  | _, .nan => .nan
  | .inf _, .inf _ => .nan
  | .inf a, .num q => if q = 0 then .inf a else .inf (a = decide (0 < q))
  | .num _, .inf _ => .num 0
  | .num a, .num b => if b = 0 then (if a = 0 then .nan else .inf (decide (0 < a))) else .num (a / b)

/-- JavaScript `<` on `JsNum`: any comparison involving `NaN` is false. -/
def jsLt : JsNum → JsNum → Bool
  | .nan, _ => false
  | _, .nan => false
  | .inf a, .inf b => !a && b
  | .inf a, .num _ => !a
  | .num _, .inf b => b
  | .num a, .num b => decide (a < b)

/-- A JavaScript array read `l[i]`: `undefined` out of bounds, which
behaves as `NaN` in the arithmetic and comparisons it is used in. -/
def jsIdx (l : List ℚ) (i : ℕ) : JsNum :=
  match l[i]? with
  | some v => .num v
  | none => .nan

/-- The two supported scale types (`type ScaleType = 'major' | 'minor'`). -/
inductive ScaleType where
  | major : ScaleType
  | minor : ScaleType
deriving DecidableEq

/-- The `Scales` table: semitone step patterns. -/
def Scales : ScaleType → List ℕ
  | .major => [2, 2, 1, 2, 2, 2, 1, 2]
  | .minor => [2, 1, 2, 2, 1, 3, 1, 2]

/-- The `A4_FREQUENCY` constant. -/
def A4_FREQUENCY : ℚ := 440

/-- `_initializeHarmonicBuckets`: for `i` from `0` to `scales - 1`, walk
the chosen scale's step list, pushing `baseFrequency * Math.pow(2, distance / 12)`
before accumulating each step into `distance`.  The loop state is the
pair (buckets so far, accumulated semitone distance).  A non-positive
`scales` runs the outer loop zero times. -/
def initializeHarmonicBuckets (pw : ℕ → ℚ) (baseFrequency : ℚ) (scale : ScaleType)
    (scales : ℤ) : List ℚ :=
  ((List.range scales.toNat).foldl
    (fun acc _ =>
      (Scales scale).foldl
        (fun (p : List ℚ × ℕ) s => (p.1 ++ [baseFrequency * pw p.2], p.2 + s)) acc)
    ([], 0)).1

/-- Stable insertion by a rational key: the new element goes in front of
the first existing element of greater-or-equal key. -/
def insertByKey {α : Type*} (key : α → ℚ) (p : α) : List α → List α
  | [] => [p]
  | q :: l => if key p ≤ key q then p :: q :: l else q :: insertByKey key p l

/-- Stable sort by a rational key, modelling
`[...data].sort((a, b) => key(a) - key(b))` (JavaScript's sort is stable,
and every stable sort under a total preorder of keys yields the same
list). -/
def sortByKey {α : Type*} (key : α → ℚ) : List α → List α
  | [] => []
  | p :: l => insertByKey key p (sortByKey key l)

/-- The optional `limits` argument of `_harmonizeFrequencies`. -/
structure Limits where
  min : ℚ
  max : ℚ
deriving DecidableEq

/-- `bound || fallback` as used on the `min` / `max` lines: a supplied
bound equal to `0` is falsy and is replaced by the fallback.  The outer
`Option` marks the `TypeError` thrown when the fallback expression
`sortedByValue[...][1]` reads a property of `undefined` (empty array);
a truthy bound short-circuits, so the fallback is never evaluated then. -/
def resolveBound (bound : Option ℚ) (fallback : Option ℚ) : Option ℚ :=
  match bound with
  | some v => if v = 0 then fallback else some v
  | none => fallback

/-- The quantization loop of `_harmonizeFrequencies`: for each
value-sorted sample, linearly interpolate its value into
`[baseFrequency, maxF]`, advance `bucketIndex` once if the interpolated
frequency exceeds the current bucket, and record
`(timestamp, buckets[bucketIndex])`. -/
def harmonizeLoop (buckets : List ℚ) (base mn mx : ℚ) (maxF : JsNum) :
    List (ℚ × ℚ) → ℕ → List (ℚ × JsNum)
  | [], _ => []
  | (t, v) :: rest, bi =>
    let mapped := jsAdd (.num base)
      (jsMul (jsDiv (.num (v - mn)) (.num (mx - mn))) (jsSub maxF (.num base)))
    let bi2 := if jsLt (jsIdx buckets bi) mapped then bi + 1 else bi
    (t, jsIdx buckets bi2) :: harmonizeLoop buckets base mn mx maxF rest bi2

/-- `_harmonizeFrequencies` up to (but not including) the final re-sort by
timestamp: sort by value, read `maxF` from the last bucket, resolve the
`min` / `max` bounds (`none` models the `TypeError` on an empty array
with a falsy or absent bound), and run the quantization loop starting at
`bucketIndex = 1`. -/
def harmonizePairs (base : ℚ) (buckets : List ℚ) (data : List (ℚ × ℚ))
    (limits : Option Limits) : Option (List (ℚ × JsNum)) :=
  let sorted := sortByKey Prod.snd data
  match resolveBound (limits.map Limits.min) (sorted.head?.map Prod.snd),
        resolveBound (limits.map Limits.max) (sorted.getLast?.map Prod.snd) with
  | some mn, some mx =>
    some (harmonizeLoop buckets base mn mx (jsIdx buckets (buckets.length - 1)) sorted 1)
  | _, _ => none

/-- `_harmonizeFrequencies`: the quantized pairs re-sorted by timestamp,
keeping only the frequencies. -/
def harmonizeFrequencies (base : ℚ) (buckets : List ℚ) (data : List (ℚ × ℚ))
    (limits : Option Limits) : Option (List JsNum) :=
  (harmonizePairs base buckets data limits).map
    (fun pairs => (sortByKey Prod.fst pairs).map Prod.snd)

/-- The two decimation strategies (`type SamplingMethod`). -/
inductive SamplingMethod where
  | random : SamplingMethod
  | systematic : SamplingMethod
deriving DecidableEq

/-- The `while (i < data.length)` loop of `_sample`: push the stride's
representative and advance `i` by `step`.  `rand i` models the value of
`Math.floor(Math.random() * step)` drawn at loop counter `i`.  The index
`i - step` (respectively `i - rand i` with `rand i ≤ step ≤ i`) is always
within bounds, so the `getD` default is never read.  The `fuel` argument
only makes the recursion structural: `_sample` calls the loop with
`step ≥ 2` and `fuel = data.length`, and with a positive step the loop
runs at most `data.length` times, so the fuel never runs out. -/
def sampleLoop (data : List (ℚ × ℚ)) (method : SamplingMethod) (rand : ℕ → ℕ)
    (step : ℕ) : ℕ → ℕ → List (ℚ × ℚ)
  | _, 0 => []
  | i, fuel + 1 =>
    if i < data.length then
      (match method with
        | .systematic => data.getD (i - step) (0, 0)
        | .random => data.getD (i - rand i) (0, 0)) ::
        sampleLoop data method rand step (i + step) fuel
    else []

/-- `_sample`: decimate `data` to at most roughly `maxSamples` points.
`step` is `⌊length / maxSamples⌋` when `length ≥ maxSamples` and `1`
otherwise; a step of `1` returns the input unchanged.  For
`maxSamples = 0` JavaScript computes `step = length / 0 = Infinity`
(`NaN` for empty data), so the loop body never runs and the result is
empty; the constructor's `options?.maxSamples || 50` makes `0` unreachable
through options, but the public `maxSamples` field can be reassigned. -/
def sample (method : SamplingMethod) (rand : ℕ → ℕ) (maxSamples : ℕ)
    (data : List (ℚ × ℚ)) : List (ℚ × ℚ) :=
  if maxSamples = 0 then []
  else
    let step := if data.length ≥ maxSamples then data.length / maxSamples else 1
    if step = 1 then data
    else sampleLoop data method rand step step data.length

/-- The mutable scheduler state of a `Sonifier` instance: the
`isPlaying` flag, the `_paused` flag and the `_playQueue` of
`[durationMs, frequency]` tuples. -/
structure SonState where
  isPlaying : Bool
  paused : Bool
  playQueue : List (ℚ × JsNum)
deriving DecidableEq

/-- One `oscillator.start` call issued to the audio device. -/
structure StartCall where
  frequency : JsNum
  duration : ℚ
deriving DecidableEq

/-- The state after construction: not playing, not paused, empty queue. -/
def initState : SonState :=
  { isPlaying := false, paused := false, playQueue := [] }

/-- `_advancePlayQueue`: if the queue is empty, do nothing; otherwise
shift the head tuple, start an oscillator for it and set `isPlaying`. -/
def advancePlayQueue (s : SonState) : SonState × List StartCall :=
  match s.playQueue with
  | [] => (s, [])
  | (t, f) :: rest =>
    ({ s with playQueue := rest, isPlaying := true }, [{ frequency := f, duration := t }])

/-- `_enqueueFrequency`: push `[t, f]` onto the queue, then advance the
queue if `isPlaying` is false (the `_paused` flag is not consulted). -/
def enqueueFrequency (f : JsNum) (t : ℚ) (s : SonState) : SonState × List StartCall :=
  let s1 : SonState := { s with playQueue := s.playQueue ++ [(t, f)] }
  if s1.isPlaying then (s1, []) else advancePlayQueue s1

/-- The oscillator's `onended` callback: advance the queue if it is
non-empty and the scheduler is not paused, otherwise clear `isPlaying`. -/
def oscEnded (s : SonState) : SonState × List StartCall :=
  if 0 < s.playQueue.length ∧ s.paused = false then advancePlayQueue s
  else ({ s with isPlaying := false }, [])

/-- `pause()`. -/
def pause (s : SonState) : SonState :=
  { s with paused := true }

/-- `stop()`: pause, then clear the queue. -/
def stop (s : SonState) : SonState :=
  { pause s with playQueue := [] }

/-- `play()`: clear the paused flag and advance the queue. -/
def play (s : SonState) : SonState × List StartCall :=
  advancePlayQueue { s with paused := false }

/-- The `SemitoneMapping` lookup table, key for key as written in the
source — including the key `Dd` (where the exported `Note` union type has
`Db`).  A missing key reads as `undefined`, modelled by `none`. -/
def SemitoneMapping (note : String) : Option ℕ :=
  if note = "A" then some 0
  else if note = "Bb" then some 1
  else if note = "B" then some 2
  else if note = "C" then some 3
  else if note = "Dd" then some 4
  else if note = "D" then some 5
  else if note = "Eb" then some 6
  else if note = "E" then some 7
  else if note = "F" then some 8
  else if note = "Gb" then some 9
  else if note = "G" then some 10
  else if note = "Ab" then some 11
  else none

/-- The 12 named pitch classes of the exported `Note` union type. -/
def NoteNames : List String :=
  ["A", "Bb", "B", "C", "Db", "D", "Eb", "E", "F", "Gb", "G", "Ab"]

/-- `playNote(note, duration)`: look the note up in `SemitoneMapping` and
enqueue `baseFrequency * Math.pow(2, semitones / 12)`.  When the lookup
yields `undefined`, `2 ** (undefined / 12)` is `NaN` and the enqueued
frequency is `NaN`. -/
def playNote (pw : ℕ → ℚ) (base : ℚ) (note : String) (duration : ℚ) (s : SonState) :
    SonState × List StartCall :=
  let f : JsNum :=
    match SemitoneMapping note with
    | some k => .num (base * pw k)
    | none => .nan
  enqueueFrequency f duration s

/-- `playSeries(data, limits)`: an empty series is a no-op; otherwise
decimate, harmonize and enqueue each frequency with a 200 ms duration.
`none` propagates the `TypeError` thrown inside `_harmonizeFrequencies`. -/
def playSeries (method : SamplingMethod) (rand : ℕ → ℕ) (maxSamples : ℕ) (base : ℚ)
    (buckets : List ℚ) (data : List (ℚ × ℚ)) (limits : Option Limits) (s : SonState) :
    Option (SonState × List StartCall) :=
  if data.length = 0 then some (s, [])
  else
    (harmonizeFrequencies base buckets (sample method rand maxSamples data) limits).map
      (fun freqs =>
        freqs.foldl
          (fun (p : SonState × List StartCall) f =>
            let r := enqueueFrequency f 200 p.1
            (r.1, p.2 ++ r.2))
          (s, []))

/-- A concrete stand-in for the abstract power function `pw`, used by
witness and counterexample theorems: like `fun d => 2 ^ (d / 12 : ℝ)` it
is strictly monotone with value `1` at `0`, which is all the theorems
assume about `pw`. -/
def pwLin : ℕ → ℚ := fun d => (d : ℚ) + 1

/-- The running semitone distances at which `_initializeHarmonicBuckets`
emits a bucket while walking a step list from start distance `d`. -/
def distList : List ℕ → ℕ → List ℕ
  | [], _ => []
  | s :: rest, d => d :: distList rest (d + s)

/-- The step list walked by `scales` outer iterations. -/
def repSteps (sc : ScaleType) : ℕ → List ℕ
  | 0 => []
  | n + 1 => Scales sc ++ repSteps sc n

/-- The observed minimum sample value: the value carried by the head of
the value-sorted list, which is what the falsy-min fallback reads. -/
def observedMin (data : List (ℚ × ℚ)) : ℚ :=
  ((sortByKey Prod.snd data).headD (0, 0)).2

/-- The observed maximum sample value: the value carried by the last
element of the value-sorted list, read by the falsy-max fallback. -/
def observedMax (data : List (ℚ × ℚ)) : ℚ :=
  ((sortByKey Prod.snd data).getLastD (0, 0)).2

theorem pwLin_strictMono : StrictMono pwLin := fun _ _ h => by
  simpa [pwLin] using h

theorem pwLin_monotone : Monotone pwLin :=
  pwLin_strictMono.monotone

theorem pwLin_zero : pwLin 0 = 1 := by
  simp [pwLin]

/-! ### Basic facts about the JavaScript number model -/

theorem jsAdd_nan_right (x : JsNum) : jsAdd x .nan = .nan := by
  cases x <;> rfl

theorem jsMul_nan_left (y : JsNum) : jsMul .nan y = .nan := by
  cases y <;> rfl

theorem jsLt_nan_right (x : JsNum) : jsLt x .nan = false := by
  cases x <;> rfl

theorem jsDiv_zero_zero : jsDiv (.num 0) (.num 0) = .nan := by
  simp [jsDiv]

theorem jsDiv_num_num {a b : ℚ} (hb : b ≠ 0) :
    jsDiv (.num a) (.num b) = .num (a / b) := by
  simp [jsDiv, hb]

theorem jsIdx_eq_num {l : List ℚ} {i : ℕ} (h : i < l.length) :
    jsIdx l i = .num (l.get ⟨i, h⟩) := by
  simp [jsIdx, List.getElem?_eq_getElem h]

/-! ### Characterizing the harmonic buckets -/

theorem distList_length (steps : List ℕ) : ∀ d, (distList steps d).length = steps.length := by
  induction steps with
  | nil => intro d; rfl
  | cons s rest ih => intro d; simp [distList, ih]

theorem distList_append (xs ys : List ℕ) :
    ∀ d, distList (xs ++ ys) d = distList xs d ++ distList ys (d + xs.sum) := by
  induction xs with
  | nil => intro d; simp [distList]
  | cons s rest ih =>
    intro d
    simp [distList, ih, Nat.add_assoc]

theorem distList_mem_le (steps : List ℕ) :
    ∀ d, ∀ x ∈ distList steps d, d ≤ x := by
  induction steps with
  | nil => intro d x hx; cases hx
  | cons s rest ih =>
    intro d x hx
    rcases List.mem_cons.mp hx with rfl | hx
    · exact le_refl _
    · exact le_trans (Nat.le_add_right d s) (ih (d + s) x hx)

theorem distList_sorted (steps : List ℕ) (hpos : ∀ s ∈ steps, 0 < s) :
    ∀ d, List.Sorted (· < ·) (distList steps d) := by
  induction steps with
  | nil => intro d; simp [distList]
  | cons s rest ih =>
    intro d
    rw [distList, List.sorted_cons]
    refine ⟨?_, ih (fun x hx => hpos x (List.mem_cons_of_mem s hx)) (d + s)⟩
    intro b hb
    have hds : d < d + s := Nat.lt_add_of_pos_right (hpos s (List.mem_cons_self s rest))
    exact lt_of_lt_of_le hds (distList_mem_le rest (d + s) b hb)

theorem Scales_pos (sc : ScaleType) : ∀ s ∈ Scales sc, 0 < s := by
  cases sc <;> decide

theorem Scales_length (sc : ScaleType) : (Scales sc).length = 8 := by
  cases sc <;> rfl

theorem repSteps_pos (sc : ScaleType) (n : ℕ) : ∀ s ∈ repSteps sc n, 0 < s := by
  induction n with
  | zero => intro s hs; cases hs
  | succ m ih =>
    intro s hs
    rcases List.mem_append.mp hs with hs | hs
    · exact Scales_pos sc s hs
    · exact ih s hs

theorem repSteps_length (sc : ScaleType) (n : ℕ) : (repSteps sc n).length = n * 8 := by
  induction n with
  | zero => rfl
  | succ m ih => simp [repSteps, ih, Scales_length, Nat.succ_mul, Nat.add_comm]

theorem repSteps_append (sc : ScaleType) (n : ℕ) :
    repSteps sc n ++ Scales sc = repSteps sc (n + 1) := by
  induction n with
  | zero => simp [repSteps]
  | succ m ih =>
    rw [repSteps, List.append_assoc, ih]
    rfl

theorem foldSteps (pw : ℕ → ℚ) (base : ℚ) (steps : List ℕ) :
    ∀ (bs : List ℚ) (d : ℕ),
      steps.foldl (fun (p : List ℚ × ℕ) s => (p.1 ++ [base * pw p.2], p.2 + s)) (bs, d)
        = (bs ++ (distList steps d).map (fun k => base * pw k), d + steps.sum) := by
  induction steps with
  | nil => intro bs d; simp [distList]
  | cons s rest ih =>
    intro bs d
    simp only [List.foldl_cons, ih, distList, List.map_cons, List.sum_cons]
    simp [Nat.add_assoc]

theorem initializeHarmonicBuckets_eq (pw : ℕ → ℚ) (base : ℚ) (sc : ScaleType) (n : ℤ) :
    initializeHarmonicBuckets pw base sc n
      = (distList (repSteps sc n.toNat) 0).map (fun k => base * pw k) := by
  suffices h : ∀ m : ℕ,
      (List.range m).foldl
        (fun acc _ =>
          (Scales sc).foldl
            (fun (p : List ℚ × ℕ) s => (p.1 ++ [base * pw p.2], p.2 + s)) acc)
        ([], 0)
      = ((distList (repSteps sc m) 0).map (fun k => base * pw k), (repSteps sc m).sum) by
    rw [initializeHarmonicBuckets, h n.toNat]
  intro m
  induction m with
  | zero => simp [repSteps, distList]
  | succ k ih =>
    rw [List.range_succ, List.foldl_append, ih, List.foldl_cons, List.foldl_nil,
      foldSteps, ← repSteps_append]
    rw [distList_append, List.map_append]
    simp [Nat.zero_add, Nat.add_comm]

theorem initializeHarmonicBuckets_length (pw : ℕ → ℚ) (base : ℚ) (sc : ScaleType) (n : ℤ) :
    (initializeHarmonicBuckets pw base sc n).length = n.toNat * 8 := by
  rw [initializeHarmonicBuckets_eq, List.length_map, distList_length, repSteps_length]

theorem insertByKey_perm {α : Type*} (key : α → ℚ) (p : α) (l : List α) :
    List.Perm (insertByKey key p l) (p :: l) := by
  induction l with
  | nil => exact List.Perm.refl _
  | cons q t ih =>
    by_cases h : key p ≤ key q
    · simp [insertByKey, h]
    · simp only [insertByKey, if_neg h]
      exact (ih.cons q).trans (List.Perm.swap p q t)

theorem sortByKey_perm {α : Type*} (key : α → ℚ) (l : List α) :
    List.Perm (sortByKey key l) l := by
  induction l with
  | nil => exact List.Perm.refl _
  | cons p t ih => exact (insertByKey_perm key p _).trans (ih.cons p)

theorem sortByKey_length {α : Type*} (key : α → ℚ) (l : List α) :
    (sortByKey key l).length = l.length :=
  (sortByKey_perm key l).length_eq

theorem insertByKey_sorted {α : Type*} (key : α → ℚ) (p : α) {l : List α}
    (h : List.Sorted (fun a b => key a ≤ key b) l) :
    List.Sorted (fun a b => key a ≤ key b) (insertByKey key p l) := by
  induction l with
  | nil => simp [insertByKey]
  | cons q t ih =>
    rw [List.sorted_cons] at h
    by_cases hpq : key p ≤ key q
    · rw [insertByKey, if_pos hpq, List.sorted_cons]
      refine ⟨?_, List.sorted_cons.mpr h⟩
      intro b hb
      rcases List.mem_cons.mp hb with rfl | hb
      · exact hpq
      · exact le_trans hpq (h.1 b hb)
    · rw [insertByKey, if_neg hpq, List.sorted_cons]
      refine ⟨?_, ih h.2⟩
      intro b hb
      rcases List.mem_cons.mp ((insertByKey_perm key p t).mem_iff.mp hb) with rfl | hb
      · exact le_of_not_le hpq
      · exact h.1 b hb

theorem sortByKey_sorted {α : Type*} (key : α → ℚ) (l : List α) :
    List.Sorted (fun a b => key a ≤ key b) (sortByKey key l) := by
  induction l with
  | nil => simp [sortByKey]
  | cons p t ih => exact insertByKey_sorted key p ih

theorem sorted_head_le {α : Type*} {key : α → ℚ} {l : List α} {x p : α}
    (h : List.Sorted (fun a b => key a ≤ key b) l) (hx : l.head? = some x)
    (hp : p ∈ l) : key x ≤ key p := by
  cases l with
  | nil => cases hp
  | cons a t =>
    rw [List.head?_cons, Option.some_inj] at hx
    subst hx
    rw [List.sorted_cons] at h
    rcases List.mem_cons.mp hp with rfl | hp
    · exact le_refl _
    · exact h.1 p hp

theorem sorted_le_getLast {α : Type*} {key : α → ℚ} {l : List α} {y : α}
    (h : List.Sorted (fun a b => key a ≤ key b) l) (hy : l.getLast? = some y) :
    ∀ p ∈ l, key p ≤ key y := by
  induction l with
  | nil => intro p hp; cases hp
  | cons a t ih =>
    intro p hp
    cases t with
    | nil =>
      simp only [List.getLast?_singleton, Option.some_inj] at hy
      subst hy
      rcases List.mem_singleton.mp hp with rfl
      exact le_refl _
    | cons b u =>
      rw [List.getLast?_cons_cons] at hy
      rw [List.sorted_cons] at h
      rcases List.mem_cons.mp hp with rfl | hp
      · exact le_trans (h.1 b (List.mem_cons_self b u))
          (ih h.2 hy b (List.mem_cons_self b u))
      · exact ih h.2 hy p hp

theorem initializeHarmonicBuckets_sorted_lt (pw : ℕ → ℚ) (base : ℚ) (sc : ScaleType)
    (n : ℤ) (hpw : StrictMono pw) (hbase : 0 < base) :
    List.Sorted (· < ·) (initializeHarmonicBuckets pw base sc n) := by
  rw [initializeHarmonicBuckets_eq]
  have h := distList_sorted (repSteps sc n.toNat) (repSteps_pos sc n.toNat) 0
  exact List.pairwise_map.mpr (h.imp (fun hab => mul_lt_mul_of_pos_left (hpw hab) hbase))

theorem initializeHarmonicBuckets_sorted_le (pw : ℕ → ℚ) (base : ℚ) (sc : ScaleType)
    (n : ℤ) (hpw : Monotone pw) (hbase : 0 < base) :
    List.Sorted (· ≤ ·) (initializeHarmonicBuckets pw base sc n) := by
  rw [initializeHarmonicBuckets_eq]
  have h := distList_sorted (repSteps sc n.toNat) (repSteps_pos sc n.toNat) 0
  exact List.pairwise_map.mpr
    (h.imp (fun hab => mul_le_mul_of_nonneg_left (hpw (le_of_lt hab)) hbase.le))

theorem initializeHarmonicBuckets_head (pw : ℕ → ℚ) (base : ℚ) (sc : ScaleType)
    {n : ℤ} (hn : 1 ≤ n) (hpw0 : pw 0 = 1) :
    (initializeHarmonicBuckets pw base sc n).head? = some base := by
  rw [initializeHarmonicBuckets_eq]
  obtain ⟨m, hm⟩ : ∃ m, n.toNat = m + 1 := ⟨n.toNat - 1, by omega⟩
  rw [hm]
  cases sc <;> simp [repSteps, Scales, distList, hpw0]

theorem initializeHarmonicBuckets_base_le (pw : ℕ → ℚ) (base : ℚ) (sc : ScaleType)
    (n : ℤ) (hpw : Monotone pw) (hpw0 : pw 0 = 1) (hbase : 0 < base) :
    ∀ x ∈ initializeHarmonicBuckets pw base sc n, base ≤ x := by
  rw [initializeHarmonicBuckets_eq]
  intro x hx
  obtain ⟨k, _, rfl⟩ := List.mem_map.mp hx
  have h1 : 1 ≤ pw k := by
    have h := hpw (Nat.zero_le k)
    rwa [hpw0] at h
  exact le_mul_of_one_le_right hbase.le h1

theorem initializeHarmonicBuckets_ne_nil (pw : ℕ → ℚ) (base : ℚ) (sc : ScaleType)
    {n : ℤ} (hn : 1 ≤ n) : initializeHarmonicBuckets pw base sc n ≠ [] := by
  apply List.ne_nil_of_length_pos
  rw [initializeHarmonicBuckets_length]
  omega

theorem initializeHarmonicBuckets_getLast (pw : ℕ → ℚ) (base : ℚ) (sc : ScaleType)
    {n : ℤ} (hn : 1 ≤ n) (hpw : Monotone pw) (hpw0 : pw 0 = 1) (hbase : 0 < base) :
    ∃ lastq : ℚ, (initializeHarmonicBuckets pw base sc n).getLast? = some lastq ∧
      base ≤ lastq := by
  have hne := initializeHarmonicBuckets_ne_nil pw base sc hn
  refine ⟨(initializeHarmonicBuckets pw base sc n).getLast hne,
    List.getLast?_eq_getLast_of_ne_nil hne, ?_⟩
  exact initializeHarmonicBuckets_base_le pw base sc n hpw hpw0 hbase _
    (List.getLast_mem hne)

/-! ### Lemmas about the quantization loop -/

theorem jsIdx_eq_getD {l : List ℚ} {i : ℕ} (h : i < l.length) :
    jsIdx l i = .num (l.getD i 0) := by
  simp [jsIdx, List.getD_eq_getElem?_getD, List.getElem?_eq_getElem h]

theorem jsIdx_last {l : List ℚ} {q : ℚ} (h : l.getLast? = some q) :
    jsIdx l (l.length - 1) = .num q := by
  rw [jsIdx]
  rw [← List.getLast?_eq_getElem?, h]

theorem getD_last {l : List ℚ} {q : ℚ} (h : l.getLast? = some q) :
    l.getD (l.length - 1) 0 = q := by
  rw [List.getD_eq_getElem?_getD, ← List.getLast?_eq_getElem?, h]
  rfl

theorem harmonizeLoop_map_fst (buckets : List ℚ) (base mn mx : ℚ) (maxF : JsNum) :
    ∀ (l : List (ℚ × ℚ)) (bi : ℕ),
      (harmonizeLoop buckets base mn mx maxF l bi).map Prod.fst = l.map Prod.fst := by
  intro l
  induction l with
  | nil => intro bi; rfl
  | cons p rest ih =>
    intro bi
    obtain ⟨t, v⟩ := p
    simp [harmonizeLoop, ih]

theorem harmonizeLoop_length (buckets : List ℚ) (base mn mx : ℚ) (maxF : JsNum)
    (l : List (ℚ × ℚ)) (bi : ℕ) :
    (harmonizeLoop buckets base mn mx maxF l bi).length = l.length := by
  have h := congrArg List.length (harmonizeLoop_map_fst buckets base mn mx maxF l bi)
  simpa using h

theorem harmonizeLoop_const (buckets : List ℚ) (base : ℚ) (maxF : JsNum) (c : ℚ) :
    ∀ (l : List (ℚ × ℚ)), (∀ p ∈ l, p.2 = c) → ∀ bi : ℕ,
      harmonizeLoop buckets base c c maxF l bi
        = l.map (fun p => (p.1, jsIdx buckets bi)) := by
  intro l
  induction l with
  | nil => intro _ bi; rfl
  | cons p rest ih =>
    intro hl bi
    obtain ⟨t, v⟩ := p
    have hv : v = c := hl (t, v) (List.mem_cons_self _ _)
    subst hv
    simp only [harmonizeLoop, sub_self, jsDiv_zero_zero, jsMul_nan_left, jsAdd_nan_right,
      jsLt_nan_right, Bool.false_eq_true, if_false, List.map_cons]
    exact congrArg _ (ih (fun p hp => hl p (List.mem_cons_of_mem _ hp)) bi)

theorem harmonizeLoop_spec (buckets : List ℚ) (base mn mx lastq : ℚ)
    (hlast : buckets.getLast? = some lastq)
    (hbase : base ≤ lastq)
    (hmm : mn < mx) :
    ∀ (l : List (ℚ × ℚ)) (bi : ℕ),
      1 ≤ bi → bi < buckets.length →
      (∀ p ∈ l, mn ≤ p.2 ∧ p.2 ≤ mx) →
      ∃ ks : List ℕ,
        harmonizeLoop buckets base mn mx (.num lastq) l bi
          = (l.zip ks).map (fun pk => (pk.1.1, JsNum.num (buckets.getD pk.2 0))) ∧
        ks.length = l.length ∧
        List.Chain' (· ≤ ·) (bi :: ks) ∧
        ∀ k ∈ ks, 1 ≤ k ∧ k < buckets.length := by
  intro l
  induction l with
  | nil =>
    intro bi hbi1 hbi2 _
    exact ⟨[], rfl, rfl, List.chain'_singleton bi, by intro k hk; cases hk⟩
  | cons p rest ih =>
    intro bi hbi1 hbi2 hl
    obtain ⟨t, v⟩ := p
    have hvm : mn ≤ v ∧ v ≤ mx := hl (t, v) (List.mem_cons_self _ _)
    have hden : mx - mn ≠ 0 := ne_of_gt (by linarith)
    have hm_le : base + (v - mn) / (mx - mn) * (lastq - base) ≤ lastq := by
      have ht1 : (v - mn) / (mx - mn) ≤ 1 :=
        (div_le_one (by linarith)).mpr (by linarith)
      have h2 : (v - mn) / (mx - mn) * (lastq - base) ≤ 1 * (lastq - base) :=
        mul_le_mul_of_nonneg_right ht1 (by linarith)
      linarith
    have hstep : ∃ bi2 : ℕ,
        (if jsLt (jsIdx buckets bi)
            (jsAdd (.num base)
              (jsMul (jsDiv (.num (v - mn)) (.num (mx - mn)))
                (jsSub (.num lastq) (.num base)))) then bi + 1 else bi) = bi2 ∧
        bi ≤ bi2 ∧ 1 ≤ bi2 ∧ bi2 < buckets.length := by
      rw [jsDiv_num_num hden, jsIdx_eq_getD hbi2]
      simp only [jsSub, jsMul, jsAdd, jsLt]
      by_cases hc : buckets.getD bi 0 < base + (v - mn) / (mx - mn) * (lastq - base)
      · rcases Nat.lt_or_ge (bi + 1) buckets.length with hlt | hge
        · exact ⟨bi + 1, by simp only [decide_eq_true_eq]; exact if_pos hc,
            Nat.le_succ bi, by omega, hlt⟩
        · exfalso
          have hbieq : bi = buckets.length - 1 := by omega
          rw [hbieq, getD_last hlast] at hc
          exact absurd hm_le (not_le.mpr hc)
      · exact ⟨bi, by simp only [decide_eq_true_eq]; exact if_neg hc, le_refl bi, hbi1, hbi2⟩
    obtain ⟨bi2, hbi2eq, hle, hb1, hb2⟩ := hstep
    obtain ⟨ks, hks, hlen, hchain, hmem⟩ :=
      ih bi2 hb1 hb2 (fun p hp => hl p (List.mem_cons_of_mem _ hp))
    refine ⟨bi2 :: ks, ?_, by simpa using hlen, ?_, ?_⟩
    · rw [harmonizeLoop]
      rw [hbi2eq, hks, jsIdx_eq_getD hb2]
      rfl
    · exact List.chain'_cons.mpr ⟨hle, hchain⟩
    · intro k hk
      rcases List.mem_cons.mp hk with rfl | hk
      · exact ⟨hb1, hb2⟩
      · exact hmem k hk

/-! ### Assembling `_harmonizeFrequencies` -/

theorem sortByKey_ne_nil {α : Type*} (key : α → ℚ) {l : List α} (h : l ≠ []) :
    sortByKey key l ≠ [] := by
  intro h0
  apply h
  have hlen := sortByKey_length key l
  rw [h0] at hlen
  exact List.length_eq_zero.mp hlen.symm

theorem harmonizePairs_none_eq {base : ℚ} {buckets : List ℚ} {data : List (ℚ × ℚ)}
    {p0 pl : ℚ × ℚ}
    (h0 : (sortByKey Prod.snd data).head? = some p0)
    (hl : (sortByKey Prod.snd data).getLast? = some pl) :
    harmonizePairs base buckets data none
      = some (harmonizeLoop buckets base p0.2 pl.2
          (jsIdx buckets (buckets.length - 1)) (sortByKey Prod.snd data) 1) := by
  simp [harmonizePairs, resolveBound, h0, hl]

theorem exists_head_getLast {α : Type*} {l : List α} (h : l ≠ []) :
    ∃ p0 pl, l.head? = some p0 ∧ l.getLast? = some pl ∧ p0 ∈ l ∧ pl ∈ l := by
  cases l with
  | nil => exact absurd rfl h
  | cons a t =>
    exact ⟨a, (a :: t).getLast (by simp), rfl,
      List.getLast?_eq_getLast_of_ne_nil (by simp),
      List.mem_cons_self a t, List.getLast_mem (by simp)⟩

theorem initializeHarmonicBuckets_getD_one (pw : ℕ → ℚ) (base : ℚ) (sc : ScaleType)
    {n : ℤ} (hn : 1 ≤ n) :
    (initializeHarmonicBuckets pw base sc n).getD 1 0 = base * pw 2 := by
  rw [initializeHarmonicBuckets_eq]
  obtain ⟨m, hm⟩ : ∃ m, n.toNat = m + 1 := ⟨n.toNat - 1, by omega⟩
  rw [hm]
  cases sc <;> simp [repSteps, Scales, distList]

theorem map_snd_sort_const {a : JsNum} {L : List (ℚ × JsNum)}
    (h : ∀ x ∈ L, x.2 = a) :
    (sortByKey Prod.fst L).map Prod.snd = List.replicate L.length a := by
  have hlen : ((sortByKey Prod.fst L).map Prod.snd).length = L.length := by
    simp [sortByKey_length]
  rw [← hlen]
  apply List.eq_replicate_length.mpr
  intro b hb
  obtain ⟨x, hx, rfl⟩ := List.mem_map.mp hb
  exact h x ((sortByKey_perm Prod.fst L).subset hx)

/-! ### Claim theorems -/

/-- C9: after `stop()` the pending playback queue is empty, and a
subsequent `play()` with no intervening enqueues starts no tone: it
issues no `start` call on the output device. -/
theorem stop_then_play_C9 (s : SonState) :
    (stop s).playQueue = [] ∧ (play (stop s)).2 = [] :=
  ⟨rfl, rfl⟩

/-- C4 counterexample: on an idle (`isPlaying = false`) but paused
scheduler, enqueueing a tone does issue a `start` call, although the
claim says an enqueue on a paused scheduler must not start a tone. -/
theorem enqueue_paused_counterexample_C4 :
    (enqueueFrequency (.num 100) 200 ⟨false, true, []⟩).2 ≠ [] := by
  decide

/-- C4 (amended): `_enqueueFrequency` appends the tone to the queue and
immediately begins playing the head if and only if the scheduler is not
currently playing — the paused flag is not consulted.  When idle it
issues exactly one `start` call for the head tone and the state becomes
playing; when already playing it only appends. -/
theorem enqueueFrequency_spec_C4 (f : JsNum) (t : ℚ) (s : SonState) :
    (s.isPlaying = false →
      enqueueFrequency f t s
        = ({ isPlaying := true, paused := s.paused,
             playQueue := (s.playQueue ++ [(t, f)]).tail },
           [{ frequency := ((s.playQueue ++ [(t, f)]).headD (0, .nan)).2,
              duration := ((s.playQueue ++ [(t, f)]).headD (0, .nan)).1 }])) ∧
    (s.isPlaying = true →
      enqueueFrequency f t s = ({ s with playQueue := s.playQueue ++ [(t, f)] }, [])) := by
  constructor
  · intro h
    cases hq : s.playQueue with
    | nil => simp [enqueueFrequency, advancePlayQueue, hq, h]
    | cons q rest =>
      obtain ⟨t0, f0⟩ := q
      simp [enqueueFrequency, advancePlayQueue, hq, h]
  · intro h
    simp [enqueueFrequency, h]

/-- C4 (amended) witness: on the idle paused scheduler the enqueued tone
starts at once; on a playing scheduler it is only queued. -/
theorem enqueueFrequency_spec_C4_witness :
    (enqueueFrequency (.num 5) 7 ⟨false, true, []⟩
      = (⟨true, true, []⟩, [⟨.num 5, 7⟩])) ∧
    (enqueueFrequency (.num 5) 7 ⟨true, false, []⟩
      = (⟨true, false, [(7, .num 5)]⟩, [])) :=
  ⟨(enqueueFrequency_spec_C4 (.num 5) 7 ⟨false, true, []⟩).1 rfl,
   (enqueueFrequency_spec_C4 (.num 5) 7 ⟨true, false, []⟩).2 rfl⟩

/-- C2: the claim fails at the pitch class Db.  The exported `Note`
union type lists `Db`, but the `SemitoneMapping` table misspells that key
as `Dd`, so `playNote('Db', d)` reads `undefined`, computes a `NaN`
frequency and enqueues a `NaN` tone instead of one 4 semitones above
base.  The scenario part of the claim does hold: `playNote('C', 200)` on
an idle, unpaused scheduler resolves to 3 semitones, enqueues exactly one
tone at `base * pw 3`, reports playing, and returns to idle on
completion. -/
theorem playNote_C2 (pw : ℕ → ℚ) (base dur : ℚ) :
    ("Db" ∈ NoteNames ∧ SemitoneMapping "Db" = none ∧
      (playNote pw base "Db" dur initState).2
        = [{ frequency := .nan, duration := dur }]) ∧
    (SemitoneMapping "C" = some 3 ∧
      playNote pw base "C" 200 initState
        = ({ isPlaying := true, paused := false, playQueue := [] },
           [{ frequency := .num (base * pw 3), duration := 200 }]) ∧
      (oscEnded (playNote pw base "C" 200 initState).1).1.isPlaying = false ∧
      (oscEnded (playNote pw base "C" 200 initState).1).2 = []) :=
  ⟨⟨by decide, rfl, rfl⟩, rfl, rfl, rfl, rfl⟩

/-- C3 counterexample: with decimation cap 1 and a two-point series,
`_sample` returns the empty list, not the input unchanged. -/
theorem sample_cap_one_counterexample_C3 :
    sample .systematic (fun _ => 0) 1 [(0, 1), (1, 2)] ≠ [(0, 1), (1, 2)] ∧
    sample .systematic (fun _ => 0) 1 [(0, 1), (1, 2)] = [] := by
  decide

/-- C3 (amended): with cap 1 (a cap of 0 is coerced to the default 50 by
the constructor's falsy check), `_sample` returns the input unchanged
only for series of length at most 1; for longer series the stride equals
the series length, the loop body never runs, and the result is empty.
No division by zero occurs in either case. -/
theorem sample_cap_one_C3 (method : SamplingMethod) (rand : ℕ → ℕ)
    (data : List (ℚ × ℚ)) :
    (data.length ≤ 1 → sample method rand 1 data = data) ∧
    (2 ≤ data.length → sample method rand 1 data = []) := by
  constructor
  · intro h
    cases data with
    | nil => simp [sample]
    | cons p rest =>
      cases rest with
      | nil => simp [sample]
      | cons q rest2 =>
        simp only [List.length_cons] at h
        omega
  · intro h
    rw [sample, if_neg one_ne_zero]
    have hge : data.length ≥ 1 := by omega
    simp only [ge_iff_le, hge, if_true, Nat.div_one]
    rw [if_neg (by omega : ¬data.length = 1)]
    obtain ⟨k, hk⟩ : ∃ k, data.length = k + 1 := ⟨data.length - 1, by omega⟩
    rw [hk]
    simp only [sampleLoop]
    rw [if_neg (by omega : ¬(k + 1 < data.length))]

/-- C3 (amended) witness: a singleton survives cap 1 unchanged, a pair
is decimated to nothing. -/
theorem sample_cap_one_C3_witness :
    sample .systematic (fun _ => 0) 1 [(0, 1)] = [(0, 1)] ∧
    sample .systematic (fun _ => 0) 1 [(0, 1), (1, 2)] = [] :=
  ⟨(sample_cap_one_C3 .systematic (fun _ => 0) [(0, 1)]).1 (by decide),
   (sample_cap_one_C3 .systematic (fun _ => 0) [(0, 1), (1, 2)]).2 (by decide)⟩

/-- C5 counterexample: `_harmonizeFrequencies` on the empty list with no
override faults (it reads `[0][1]` of an empty array, a `TypeError`,
modelled as `none`) instead of returning the empty sequence. -/
theorem harmonize_empty_counterexample_C5 :
    harmonizeFrequencies 440 (initializeHarmonicBuckets pwLin 440 .major 3) [] none
      = none ∧
    harmonizeFrequencies 440 (initializeHarmonicBuckets pwLin 440 .major 3) [] none
      ≠ some [] :=
  ⟨rfl, fun h => Option.noConfusion h⟩

/-- C5 (amended): on the empty input with no override, the min-bound
fallback reads a property of `undefined` and `_harmonizeFrequencies`
throws; an empty result is returned only when both override bounds are
supplied and non-zero (truthy), so the fallbacks are never evaluated. -/
theorem harmonize_empty_C5 (base : ℚ) (buckets : List ℚ) (m M : ℚ)
    (hm : m ≠ 0) (hM : M ≠ 0) :
    harmonizeFrequencies base buckets [] none = none ∧
    harmonizeFrequencies base buckets [] (some ⟨m, M⟩) = some [] := by
  refine ⟨rfl, ?_⟩
  simp [harmonizeFrequencies, harmonizePairs, sortByKey, resolveBound, hm, hM,
    harmonizeLoop]

/-- C5 (amended) witness at base 440, no buckets needed, bounds 1 and 2. -/
theorem harmonize_empty_C5_witness :
    harmonizeFrequencies 440 [] [] none = none ∧
    harmonizeFrequencies 440 [] [] (some ⟨1, 2⟩) = some [] :=
  harmonize_empty_C5 440 [] 1 2 (by decide) (by decide)

/-- C8: `_initializeHarmonicBuckets` builds `octaveRepeats * 8` buckets
(empty when the repeat count is non-positive), strictly increasing, and
the first bucket — when the sequence is non-empty — is the base
frequency itself. -/
theorem buildBuckets_C8 (pw : ℕ → ℚ) (base : ℚ) (sc : ScaleType) (n : ℤ)
    (hpw : StrictMono pw) (hpw0 : pw 0 = 1) (hbase : 0 < base) :
    (initializeHarmonicBuckets pw base sc n).length = n.toNat * 8 ∧
    (n ≤ 0 → initializeHarmonicBuckets pw base sc n = []) ∧
    List.Sorted (· < ·) (initializeHarmonicBuckets pw base sc n) ∧
    (1 ≤ n → (initializeHarmonicBuckets pw base sc n).head? = some base) := by
  refine ⟨initializeHarmonicBuckets_length pw base sc n, ?_,
    initializeHarmonicBuckets_sorted_lt pw base sc n hpw hbase,
    fun hn => initializeHarmonicBuckets_head pw base sc hn hpw0⟩
  intro hn
  apply List.length_eq_zero.mp
  rw [initializeHarmonicBuckets_length]
  omega

/-- C8 witness: base 440 Hz, major scale, one octave repeat gives exactly
8 strictly increasing buckets starting at 440. -/
theorem buildBuckets_C8_witness :
    (initializeHarmonicBuckets pwLin 440 .major 1).length = 8 ∧
    List.Sorted (· < ·) (initializeHarmonicBuckets pwLin 440 .major 1) ∧
    (initializeHarmonicBuckets pwLin 440 .major 1).head? = some 440 := by
  obtain ⟨hlen, _, hsort, hhead⟩ :=
    buildBuckets_C8 pwLin 440 .major 1 pwLin_strictMono pwLin_zero (by decide)
  exact ⟨hlen, hsort, hhead (by decide)⟩

/-- C1 counterexample: a flat two-sample series (all values 5, no
override) is not mapped to the base frequency 440; both samples get the
second bucket instead. -/
theorem harmonize_flat_counterexample_C1 :
    harmonizeFrequencies 440 (initializeHarmonicBuckets pwLin 440 .major 1)
        [(0, 5), (1, 5)] none
      ≠ some [.num 440, .num 440] := by
  with_unfolding_all decide

/-- C1 (amended): on a non-empty all-equal series with no override the
interpolation divides zero by zero, giving `NaN`; the `NaN` comparison
never advances the bucket index, which stays at its initial value 1, so
every sample is mapped — without any fault — to bucket 1, one scale step
strictly above the base frequency (not to the base frequency). -/
theorem harmonize_flat_C1 (pw : ℕ → ℚ) (base c : ℚ) (sc : ScaleType) (n : ℤ)
    (data : List (ℚ × ℚ))
    (hpw : StrictMono pw) (hpw0 : pw 0 = 1) (hbase : 0 < base) (hn : 1 ≤ n)
    (hne : data ≠ []) (hall : ∀ p ∈ data, p.2 = c) :
    base < (initializeHarmonicBuckets pw base sc n).getD 1 0 ∧
    harmonizeFrequencies base (initializeHarmonicBuckets pw base sc n) data none
      = some (List.replicate data.length
          (.num ((initializeHarmonicBuckets pw base sc n).getD 1 0))) := by
  constructor
  · rw [initializeHarmonicBuckets_getD_one pw base sc hn]
    have h2 : (1 : ℚ) < pw 2 := by
      rw [← hpw0]
      exact hpw (by omega)
    exact lt_mul_of_one_lt_right hbase h2
  · have hsne := sortByKey_ne_nil Prod.snd hne
    obtain ⟨p0, pl, h0, hl, hm0, hml⟩ := exists_head_getLast hsne
    have hvals : ∀ p ∈ sortByKey Prod.snd data, p.2 = c :=
      fun p hp => hall p ((sortByKey_perm Prod.snd data).subset hp)
    have hc0 : p0.2 = c := hvals p0 hm0
    have hcl : pl.2 = c := hvals pl hml
    have h1lt : 1 < (initializeHarmonicBuckets pw base sc n).length := by
      rw [initializeHarmonicBuckets_length]
      omega
    rw [harmonizeFrequencies, harmonizePairs_none_eq h0 hl, hc0, hcl,
      harmonizeLoop_const _ _ _ c _ hvals 1, jsIdx_eq_getD h1lt, Option.map_some']
    have hmap : ∀ x ∈ (sortByKey Prod.snd data).map
        (fun p => (p.1, JsNum.num ((initializeHarmonicBuckets pw base sc n).getD 1 0))),
        x.2 = JsNum.num ((initializeHarmonicBuckets pw base sc n).getD 1 0) := by
      intro x hx
      obtain ⟨p, _, rfl⟩ := List.mem_map.mp hx
      rfl
    rw [map_snd_sort_const hmap]
    simp [sortByKey_length]

/-- C1 (amended) witness: the flat series [(0,5),(1,5)] with base 440 is
mapped to two copies of bucket 1, which lies strictly above 440. -/
theorem harmonize_flat_C1_witness :
    440 < (initializeHarmonicBuckets pwLin 440 .major 1).getD 1 0 ∧
    harmonizeFrequencies 440 (initializeHarmonicBuckets pwLin 440 .major 1)
        [(0, 5), (1, 5)] none
      = some (List.replicate 2
          (.num ((initializeHarmonicBuckets pwLin 440 .major 1).getD 1 0))) :=
  harmonize_flat_C1 pwLin 440 5 .major 1 [(0, 5), (1, 5)]
    pwLin_strictMono pwLin_zero (by decide) (by decide) (by decide) (by decide)

/-- C10: in `playSeries`'s harmonization, an override bound equal to `0`
is falsy under `||` and is ignored in favour of the observed bound, a
zero pair behaves exactly like no override at all, and non-zero bounds
are used verbatim by the quantization loop. -/
theorem harmonize_override_falsy_C10 (base : ℚ) (buckets : List ℚ)
    (data : List (ℚ × ℚ)) (m M : ℚ) (hne : data ≠ []) (hm : m ≠ 0) (hM : M ≠ 0) :
    harmonizeFrequencies base buckets data (some ⟨0, M⟩)
      = harmonizeFrequencies base buckets data (some ⟨observedMin data, M⟩) ∧
    harmonizeFrequencies base buckets data (some ⟨m, 0⟩)
      = harmonizeFrequencies base buckets data (some ⟨m, observedMax data⟩) ∧
    harmonizeFrequencies base buckets data (some ⟨0, 0⟩)
      = harmonizeFrequencies base buckets data none ∧
    harmonizePairs base buckets data (some ⟨m, M⟩)
      = some (harmonizeLoop buckets base m M (jsIdx buckets (buckets.length - 1))
          (sortByKey Prod.snd data) 1) := by
  obtain ⟨p0, pl, h0, hl, _, _⟩ := exists_head_getLast (sortByKey_ne_nil Prod.snd hne)
  have hmin : observedMin data = p0.2 := by
    rw [observedMin, List.headD_eq_head?, h0]
    rfl
  have hmax : observedMax data = pl.2 := by
    rw [observedMax, List.getLastD_eq_getLast?, hl]
    rfl
  refine ⟨?_, ?_, ?_, ?_⟩
  · by_cases hz : p0.2 = 0 <;>
      simp [harmonizeFrequencies, harmonizePairs, resolveBound, h0, hl, hmin, hz, hM]
  · by_cases hz : pl.2 = 0 <;>
      simp [harmonizeFrequencies, harmonizePairs, resolveBound, h0, hl, hmax, hz, hm]
  · simp [harmonizeFrequencies, harmonizePairs, resolveBound, h0, hl]
  · simp [harmonizePairs, resolveBound, hm, hM]

/-- C10 witness on the series [(0,3),(1,7)] with bounds 1 and 9. -/
theorem harmonize_override_falsy_C10_witness :
    harmonizeFrequencies 440 [440, 880] [(0, 3), (1, 7)] (some ⟨0, 9⟩)
      = harmonizeFrequencies 440 [440, 880] [(0, 3), (1, 7)]
          (some ⟨observedMin [(0, 3), (1, 7)], 9⟩) ∧
    harmonizeFrequencies 440 [440, 880] [(0, 3), (1, 7)] (some ⟨1, 0⟩)
      = harmonizeFrequencies 440 [440, 880] [(0, 3), (1, 7)]
          (some ⟨1, observedMax [(0, 3), (1, 7)]⟩) ∧
    harmonizeFrequencies 440 [440, 880] [(0, 3), (1, 7)] (some ⟨0, 0⟩)
      = harmonizeFrequencies 440 [440, 880] [(0, 3), (1, 7)] none ∧
    harmonizePairs 440 [440, 880] [(0, 3), (1, 7)] (some ⟨1, 9⟩)
      = some (harmonizeLoop [440, 880] 440 1 9 (jsIdx [440, 880] 1)
          (sortByKey Prod.snd [(0, 3), (1, 7)]) 1) :=
  harmonize_override_falsy_C10 440 [440, 880] [(0, 3), (1, 7)] 1 9
    (by decide) (by decide) (by decide)

/-- C7 counterexample: on the empty series — which is ordered by
timestamp — `_harmonizeFrequencies` returns no output at all (it
faults), so there is no output of matching length. -/
theorem harmonize_roundtrip_counterexample_C7 :
    (harmonizeFrequencies 330 (initializeHarmonicBuckets pwLin 330 .minor 2)
        [] none).isSome = false :=
  rfl

/-- C7 (amended): on every non-empty series sorted by timestamp,
`_harmonizeFrequencies` returns exactly one frequency per input sample,
and re-sorting the internally value-sorted pairs by timestamp restores
the input's chronological timestamp sequence. -/
theorem harmonize_roundtrip_C7 (base : ℚ) (buckets : List ℚ) (data : List (ℚ × ℚ))
    (hne : data ≠ [])
    (hsorted : List.Sorted (fun a b : ℚ × ℚ => a.1 ≤ b.1) data) :
    ∃ pairs out,
      harmonizePairs base buckets data none = some pairs ∧
      harmonizeFrequencies base buckets data none = some out ∧
      out.length = data.length ∧
      (sortByKey Prod.fst pairs).map Prod.fst = data.map Prod.fst := by
  obtain ⟨p0, pl, h0, hl, _, _⟩ := exists_head_getLast (sortByKey_ne_nil Prod.snd hne)
  refine ⟨harmonizeLoop buckets base p0.2 pl.2
      (jsIdx buckets (buckets.length - 1)) (sortByKey Prod.snd data) 1,
    (sortByKey Prod.fst (harmonizeLoop buckets base p0.2 pl.2
      (jsIdx buckets (buckets.length - 1)) (sortByKey Prod.snd data) 1)).map Prod.snd,
    harmonizePairs_none_eq h0 hl, ?_, ?_, ?_⟩
  · rw [harmonizeFrequencies, harmonizePairs_none_eq h0 hl, Option.map_some']
  · rw [List.length_map, sortByKey_length, harmonizeLoop_length, sortByKey_length]
  · have hperm : List.Perm
        ((sortByKey Prod.fst (harmonizeLoop buckets base p0.2 pl.2
          (jsIdx buckets (buckets.length - 1)) (sortByKey Prod.snd data) 1)).map Prod.fst)
        (data.map Prod.fst) := by
      have h1 := (sortByKey_perm Prod.fst (harmonizeLoop buckets base p0.2 pl.2
        (jsIdx buckets (buckets.length - 1)) (sortByKey Prod.snd data) 1)).map Prod.fst
      rw [harmonizeLoop_map_fst] at h1
      exact h1.trans ((sortByKey_perm Prod.snd data).map Prod.fst)
    have hsort1 : List.Sorted (· ≤ ·)
        ((sortByKey Prod.fst (harmonizeLoop buckets base p0.2 pl.2
          (jsIdx buckets (buckets.length - 1)) (sortByKey Prod.snd data) 1)).map Prod.fst) :=
      List.pairwise_map.mpr (sortByKey_sorted Prod.fst _)
    have hsort2 : List.Sorted (· ≤ ·) (data.map Prod.fst) :=
      List.pairwise_map.mpr hsorted
    exact List.eq_of_perm_of_sorted hperm hsort1 hsort2

/-- C7 (amended) witness on the timestamp-sorted series
[(0,1),(1,5),(2,3)]: three output frequencies and the timestamp sequence
0, 1, 2 round-trips. -/
theorem harmonize_roundtrip_C7_witness :
    ∃ pairs out,
      harmonizePairs 440 (initializeHarmonicBuckets pwLin 440 .major 1)
          [(0, 1), (1, 5), (2, 3)] none = some pairs ∧
      harmonizeFrequencies 440 (initializeHarmonicBuckets pwLin 440 .major 1)
          [(0, 1), (1, 5), (2, 3)] none = some out ∧
      out.length = 3 ∧
      (sortByKey Prod.fst pairs).map Prod.fst = [0, 1, 2] :=
  harmonize_roundtrip_C7 440 (initializeHarmonicBuckets pwLin 440 .major 1)
    [(0, 1), (1, 5), (2, 3)] (by decide) (by decide)

theorem mem_of_getElem_opt {α : Type*} {l : List α} {i : ℕ} {a : α}
    (h : l[i]? = some a) : a ∈ l := by
  obtain ⟨h2, h3⟩ := List.getElem?_eq_some.mp h
  exact h3 ▸ List.getElem_mem h2

theorem getD_eq_get {l : List ℚ} {k : ℕ} (h : k < l.length) :
    l.getD k 0 = l.get ⟨k, h⟩ := by
  simp [List.getD_eq_getElem?_getD, List.getElem?_eq_getElem h]

/-- C6: harmonization is rank-preserving.  For any two positions `i`, `j`
of the value-sorted sample list holding samples with strictly increasing
values, the quantization loop assigns finite bucket frequencies `qi`,
`qj` with `qi ≤ qj` (the bucket index only ever advances along the
value-sorted sweep, never past the final bucket, and the buckets
themselves are non-decreasing). -/
theorem harmonize_monotone_C6 (pw : ℕ → ℚ) (base : ℚ) (sc : ScaleType) (n : ℤ)
    (data : List (ℚ × ℚ)) (i j : ℕ) (pi pj : ℚ × ℚ)
    (hpw : Monotone pw) (hpw0 : pw 0 = 1) (hbase : 0 < base) (hn : 1 ≤ n)
    (hpi : (sortByKey Prod.snd data)[i]? = some pi)
    (hpj : (sortByKey Prod.snd data)[j]? = some pj)
    (hv : pi.2 < pj.2) :
    ∃ pairs qi qj,
      harmonizePairs base (initializeHarmonicBuckets pw base sc n) data none
        = some pairs ∧
      pairs[i]? = some (pi.1, JsNum.num qi) ∧
      pairs[j]? = some (pj.1, JsNum.num qj) ∧
      qi ≤ qj := by
  have hdne : data ≠ [] := by
    intro h
    subst h
    simp [sortByKey] at hpi
  have hsortedB := initializeHarmonicBuckets_sorted_le pw base sc n hpw hbase
  obtain ⟨lastq, hlast, hbl⟩ :=
    initializeHarmonicBuckets_getLast pw base sc hn hpw hpw0 hbase
  have hlen1 : 1 < (initializeHarmonicBuckets pw base sc n).length := by
    rw [initializeHarmonicBuckets_length]
    omega
  obtain ⟨p0, pl, h0, hl, _, _⟩ := exists_head_getLast (sortByKey_ne_nil Prod.snd hdne)
  have hs_sorted := sortByKey_sorted Prod.snd data
  obtain ⟨hi, hgi⟩ := List.getElem?_eq_some.mp hpi
  obtain ⟨hj, hgj⟩ := List.getElem?_eq_some.mp hpj
  have hmi : pi ∈ sortByKey Prod.snd data := mem_of_getElem_opt hpi
  have hmj : pj ∈ sortByKey Prod.snd data := mem_of_getElem_opt hpj
  have hr : ∀ p ∈ sortByKey Prod.snd data, p0.2 ≤ p.2 ∧ p.2 ≤ pl.2 :=
    fun p hp => ⟨sorted_head_le hs_sorted h0 hp, sorted_le_getLast hs_sorted hl p hp⟩
  have hmm : p0.2 < pl.2 :=
    lt_of_le_of_lt (hr pi hmi).1 (lt_of_lt_of_le hv (hr pj hmj).2)
  obtain ⟨ks, hks, hlctr, hchain, hkmem⟩ :=
    harmonizeLoop_spec (initializeHarmonicBuckets pw base sc n) base p0.2 pl.2 lastq
      hlast hbl hmm (sortByKey Prod.snd data) 1 (le_refl 1) hlen1 hr
  have hpairs : harmonizePairs base (initializeHarmonicBuckets pw base sc n) data none
      = some (harmonizeLoop (initializeHarmonicBuckets pw base sc n) base p0.2 pl.2
          (JsNum.num lastq) (sortByKey Prod.snd data) 1) := by
    rw [harmonizePairs_none_eq h0 hl, jsIdx_last hlast]
  have hij : i < j := by
    rcases Nat.lt_trichotomy i j with h | h | h
    · exact h
    · exfalso
      subst h
      rw [hgi] at hgj
      subst hgj
      exact lt_irrefl _ hv
    · exfalso
      have := List.Sorted.rel_get_of_lt hs_sorted
        (a := ⟨j, hj⟩) (b := ⟨i, hi⟩) h
      simp only [List.get_eq_getElem, hgi, hgj] at this
      exact absurd hv (not_lt.mpr this)
  -- positions in the zipped output
  have hzlen : ((sortByKey Prod.snd data).zip ks).length
      = (sortByKey Prod.snd data).length := by
    rw [List.length_zip, hlctr, min_self]
  have hki : i < ks.length := by omega
  have hkj : j < ks.length := by omega
  have hbndi := hkmem (ks.get ⟨i, hki⟩) (ks.get_mem _ _)
  have hbndj := hkmem (ks.get ⟨j, hkj⟩) (ks.get_mem _ _)
  refine ⟨_,
    (initializeHarmonicBuckets pw base sc n).getD (ks.get ⟨i, hki⟩) 0,
    (initializeHarmonicBuckets pw base sc n).getD (ks.get ⟨j, hkj⟩) 0,
    hpairs, ?_, ?_, ?_⟩
  · rw [hks]
    have hzi : i < (((sortByKey Prod.snd data).zip ks).map
        (fun pk => (pk.1.1, JsNum.num
          ((initializeHarmonicBuckets pw base sc n).getD pk.2 0)))).length := by
      rw [List.length_map, hzlen]
      exact hi
    rw [List.getElem?_eq_getElem hzi, List.getElem_map, List.getElem_zip]
    simp [hgi, List.get_eq_getElem]
  · rw [hks]
    have hzj : j < (((sortByKey Prod.snd data).zip ks).map
        (fun pk => (pk.1.1, JsNum.num
          ((initializeHarmonicBuckets pw base sc n).getD pk.2 0)))).length := by
      rw [List.length_map, hzlen]
      exact hj
    rw [List.getElem?_eq_getElem hzj, List.getElem_map, List.getElem_zip]
    simp [hgj, List.get_eq_getElem]
  · have hkk : ks.get ⟨i, hki⟩ ≤ ks.get ⟨j, hkj⟩ :=
      List.pairwise_iff_get.mp ((List.chain'_iff_pairwise.mp hchain).of_cons)
        ⟨i, hki⟩ ⟨j, hkj⟩ hij
    rcases lt_or_eq_of_le hkk with hlt | heq
    · rw [getD_eq_get hbndi.2, getD_eq_get hbndj.2]
      exact List.Sorted.rel_get_of_lt hsortedB hlt
    · rw [heq]

/-- C6 witness on the series [(0,1),(1,5),(2,3)]: in the value-sorted
order the sample (0,1) sits at position 0 and (1,5) at position 2, and
the frequency assigned to the former is at most that of the latter. -/
theorem harmonize_monotone_C6_witness :
    ∃ pairs qi qj,
      harmonizePairs 440 (initializeHarmonicBuckets pwLin 440 .major 1)
          [(0, 1), (1, 5), (2, 3)] none = some pairs ∧
      pairs[0]? = some (0, JsNum.num qi) ∧
      pairs[2]? = some (1, JsNum.num qj) ∧
      qi ≤ qj :=
  harmonize_monotone_C6 pwLin 440 .major 1 [(0, 1), (1, 5), (2, 3)] 0 2 (0, 1) (1, 5)
    pwLin_monotone pwLin_zero (by decide) (by decide) (by decide) (by decide) (by decide)

end Sonifier
